import Mathlib

/-!
# Verification of the RedQueue collection-encoding layer

Shallow embedding of `src/t_set.c` and `src/t_list.c`: the polymorphic
encoding façades for Set and List collection values.  The backend
primitives (intset, listpack, quicklist, dict) are external collaborators
that are not part of the sources; where their behaviour matters it is
modelled from the spec, and such definitions are marked
`Modelled from the spec:` in their doc comment.
-/

namespace RedQueue

/-! ## Logical values

A set element is a byte string.  The engine distinguishes strings that are
the canonical decimal representation of a signed 64-bit integer (decided by
`string2ll` / `isSdsRepresentableAsLongLong`) from all other strings, so we
represent an element by that disjoint sum: `SVal.int n` stands for the byte
string that is the canonical decimal text of `n`, `SVal.str s` stands for a
byte string that is not integer-representable.  Canonical decimal rendering
is injective, hence byte-equality of elements coincides with equality of
`SVal`. -/
inductive SVal where
  | int (n : Int)
  | str (s : String)
deriving DecidableEq

/-- Number of decimal digits of a natural number (`digits10` in util.c). -/
def digits10 (n : Nat) : Nat := Nat.log 10 n + 1

/-- Decimal width of a signed integer, counting a minus sign
(`sdigits10` in util.c). -/
def sdigits10 (v : Int) : Nat :=
  if v < 0 then digits10 (-v).toNat + 1 else digits10 v.toNat

/-- Byte length of the element, as `sdslen` reports it: the length of the
string, which for an integer-representable string is its decimal width. -/
def svalLen : SVal → Nat
  | .int n => sdigits10 n
  | .str s => s.length

/-! ## Integer-set backend

Modelled from the spec: the Integer-Set backend is a "sorted fixed-width
integer array" offering add/remove/find with a success flag, length, min
and max.  We model it as a strictly sorted `List Int`; `intsetAdd` inserts
in sorted position when absent, `intsetRemove` deletes when present. -/

def intsetAdd : List Int → Int → List Int × Bool
  | [], v => ([v], true)
  | x :: xs, v =>
    if v < x then (v :: x :: xs, true)
    else if v = x then (x :: xs, false)
    else
      let r := intsetAdd xs v
      (x :: r.1, r.2)

def intsetRemove : List Int → Int → List Int × Bool
  | [], _ => ([], false)
  | x :: xs, v =>
    if v < x then (x :: xs, false)
    else if v = x then (xs, true)
    else
      let r := intsetRemove xs v
      (x :: r.1, r.2)

/-- `intsetMin`: first element of the sorted array. -/
def intsetMin (l : List Int) : Int := l.headD 0

/-- `intsetMax`: last element of the sorted array. -/
def intsetMax (l : List Int) : Int := l.getLastD 0

/-! ## Set stores and configuration -/

/-- The backing store of a Set.  The constructor plays the role of the
`encoding` tag of the `robj` (invariant 1 of the spec: tag and store always
match).  Listpack and hash-table stores hold the logical byte strings in
iteration order. -/
inductive SetStore where
  | intset (l : List Int)
  | listpack (l : List SVal)
  | ht (l : List SVal)
deriving DecidableEq

/-- Set encodings, ordered by the promotion direction. -/
inductive SetEnc where
  | intset
  | listpack
  | ht
deriving DecidableEq

def SetStore.enc : SetStore → SetEnc
  | .intset _ => .intset
  | .listpack _ => .listpack
  | .ht _ => .ht

/-- Rank of an encoding in the promotion order
IntegerSet -> CompactSequential -> HashTable. -/
def SetEnc.rank : SetEnc → Nat
  | .intset => 0
  | .listpack => 1
  | .ht => 2

/-- The abstract member list of a set store: every stored element as a
logical byte string, in iteration order. -/
def SetStore.members : SetStore → List SVal
  | .intset l => l.map SVal.int
  | .listpack l => l
  | .ht l => l

/-- Read-only configuration and opaque collaborator accounting consumed by
the Set façade.  `lpBytesSet` is the collaborator's total-byte-size of a
set listpack, `lpSafetyLimit` the addressable-size guard used by
`lpSafeToAdd`, `lpEstimateBytesRepeatedInteger` the collaborator's
estimate, and `dictTryExpandOk` tells whether presizing a hash table to a
given capacity succeeds (resource model for `dictTryExpand`). -/
structure SetConfig where
  set_max_intset_entries : Nat
  set_max_listpack_entries : Nat
  set_max_listpack_value : Nat
  lpSafetyLimit : Nat
  lpBytesSet : List SVal → Nat
  lpEstimateBytesRepeatedInteger : Int → Nat → Nat
  dictTryExpandOk : Nat → Bool

/-- `lpSafeToAdd(lp, add)`: adding `add` bytes keeps the listpack within the
addressable-size guard; called with no listpack (`none`) the current size
counts as 0. -/
def lpSafeToAdd (cfg : SetConfig) (lp : Option (List SVal)) (add : Nat) : Bool :=
  (match lp with
    | none => 0
    | some l => cfg.lpBytesSet l) + add ≤ cfg.lpSafetyLimit

/-- `intsetMaxEntries()`: the configured intset bound, internally capped at
`2^30` entries. -/
def intsetMaxEntries (cfg : SetConfig) : Nat :=
  min cfg.set_max_intset_entries (2 ^ 30)

/-! ## Set conversion -/

/-- Target encodings supported by `setTypeConvertAndExpand` (an intset
target is `serverPanic("Unsupported set conversion")` in the code and is
excluded by construction). -/
inductive ConvTarget where
  | toListpack
  | toHT
deriving DecidableEq

def ConvTarget.enc : ConvTarget → SetEnc
  | .toListpack => .listpack
  | .toHT => .ht

/-- `setTypeConvertAndExpand(setobj, enc, cap, panic)`.  Returns the new
store paired with the status flag (`true` = C_OK).  On the non-panic path a
failed `dictTryExpand` releases only the fresh dict and reports C_ERR,
leaving the original store untouched; otherwise the old backing is fully
drained (in iteration order) into the new one.  The presizing capacity has
no logical effect beyond the failure check. -/
def setTypeConvertAndExpand (cfg : SetConfig) (o : SetStore) (tgt : ConvTarget)
    (cap : Nat) (panic : Bool) : SetStore × Bool :=
  match tgt with
  | .toHT =>
    if !panic && !(cfg.dictTryExpandOk cap) then (o, false)
    else (.ht o.members, true)
  | .toListpack => (.listpack o.members, true)

/-- The `panic = 1` call pattern used by the Add paths: conversion that
cannot fail. -/
def convertPanic (cfg : SetConfig) (o : SetStore) (tgt : ConvTarget) (cap : Nat) :
    SetStore :=
  (setTypeConvertAndExpand cfg o tgt cap true).1

/-- `maybeConvertIntset`: converts an intset to a hash table when it holds
more entries than the (capped) bound. -/
def maybeConvertIntset (cfg : SetConfig) (l : List Int) : SetStore :=
  if l.length > intsetMaxEntries cfg then
    convertPanic cfg (.intset l) .toHT l.length
  else .intset l

/-- `dictAdd` on a hash-table store (the `serverAssert(dictAdd(..) == DICT_OK)`
call sites: the key is known to be absent). -/
def dictAddToSet (o : SetStore) (v : SVal) : SetStore :=
  match o with
  | .ht l => .ht (l ++ [v])
  | x => x

/-- `maxelelen` of the non-integer intset Add path: the wider of the
decimal widths of the current maximum and minimum, used as a stand-in
width for every existing element (0 when the set is empty). -/
def intsetMaxEleLen (l : List Int) : Nat :=
  if l.length = 0 then 0
  else max (sdigits10 (intsetMax l)) (sdigits10 (intsetMin l))

/-- `totsize` of the non-integer intset Add path: the conservative
estimate of the listpack bytes needed for all current elements, taking
the wider of the repeated-max and repeated-min estimates. -/
def intsetConvEstimate (cfg : SetConfig) (l : List Int) : Nat :=
  if l.length = 0 then 0
  else max (cfg.lpEstimateBytesRepeatedInteger (intsetMax l) l.length)
    (cfg.lpEstimateBytesRepeatedInteger (intsetMin l) l.length)

/-- The gate of the non-integer intset Add path: entry count below the
listpack entry bound, the new value's length and the stand-in width within
the element-length bound, and the conservative total estimate plus the new
value passing the addressable-size guard. -/
def intsetNonIntGate (cfg : SetConfig) (l : List Int) (len : Nat) : Prop :=
  l.length < cfg.set_max_listpack_entries
  ∧ len ≤ cfg.set_max_listpack_value
  ∧ intsetMaxEleLen l ≤ cfg.set_max_listpack_value
  ∧ lpSafeToAdd cfg none (intsetConvEstimate cfg l + len) = true

instance (cfg : SetConfig) (l : List Int) (len : Nat) :
    Decidable (intsetNonIntGate cfg l len) := by
  unfold intsetNonIntGate
  infer_instance

/-! ## Set façade operations -/

/-- `setTypeAddAux` for a value given as a string (`setTypeAdd`).  When the
value is provided as an integer the code converts it to its decimal text
and continues through the same branches (the listpack branch then appends
via `lpAppendInteger`, which stores the same logical byte string), so this
single function also captures the integer call style.  Returns the new
store and the inserted flag. -/
def setTypeAdd (cfg : SetConfig) (o : SetStore) (v : SVal) : SetStore × Bool :=
  match o with
  | .ht l =>
    if v ∈ l then (.ht l, false) else (.ht (l ++ [v]), true)
  | .listpack l =>
    if v ∈ l then (.listpack l, false)
    else
      if l.length < cfg.set_max_listpack_entries
          ∧ svalLen v ≤ cfg.set_max_listpack_value
          ∧ lpSafeToAdd cfg (some l) (svalLen v) then
        (.listpack (l ++ [v]), true)
      else
        (dictAddToSet (convertPanic cfg (.listpack l) .toHT (l.length + 1)) v, true)
  | .intset l =>
    match v with
    | .int n =>
      let r := intsetAdd l n
      if r.2 then (maybeConvertIntset cfg r.1, true) else (.intset r.1, false)
    | .str s =>
      if intsetNonIntGate cfg l s.length then
        match convertPanic cfg (.intset l) .toListpack (l.length + 1) with
        | .listpack m => (.listpack (m ++ [.str s]), true)
        | x => (x, true)
      else
        (dictAddToSet (convertPanic cfg (.intset l) .toHT (l.length + 1)) (.str s), true)

/-- `setTypeRemoveAux` for a value given as a string (`setTypeRemove`).
Returns the new store and the deleted flag.  The hash-table branch may
additionally trigger the table's own resize, which does not change the
member set. -/
def setTypeRemove (o : SetStore) (v : SVal) : SetStore × Bool :=
  match o with
  | .ht l =>
    if v ∈ l then (.ht (l.erase v), true) else (.ht l, false)
  | .listpack l =>
    if v ∈ l then (.listpack (l.erase v), true) else (.listpack l, false)
  | .intset l =>
    match v with
    | .int n =>
      let r := intsetRemove l n
      (.intset r.1, r.2)
    | .str _ => (.intset l, false)

/-- `setTypeSize`: per-encoding cardinality of the backing store. -/
def setTypeSize : SetStore → Nat
  | .intset l => l.length
  | .listpack l => l.length
  | .ht l => l.length

/-! ## Well-formedness

A reachable set store has no duplicate members, and an intset store is
strictly sorted (the sorted-array invariant of the collaborator). -/

def SetStore.good : SetStore → Prop
  | .intset l => l.Pairwise (· < ·)
  | .listpack l => l.Nodup
  | .ht l => l.Nodup

instance : DecidablePred SetStore.good := fun o =>
  match o with
  | .intset _ => inferInstanceAs (Decidable (List.Pairwise _ _))
  | .listpack _ => inferInstanceAs (Decidable (List.Nodup _))
  | .ht _ => inferInstanceAs (Decidable (List.Nodup _))

/-! ## Operation sequences over a Set -/

inductive SetOp where
  | add (v : SVal)
  | rem (v : SVal)
deriving DecidableEq

def applyOp (cfg : SetConfig) (o : SetStore) : SetOp → SetStore × Bool
  | .add v => setTypeAdd cfg o v
  | .rem v => setTypeRemove o v

/-- Run a sequence of `Add`/`Remove` operations, collecting each
operation's returned flag. -/
def runOps (cfg : SetConfig) : SetStore → List SetOp → SetStore × List Bool
  | o, [] => (o, [])
  | o, op :: rest =>
    let r := applyOp cfg o op
    let t := runOps cfg r.1 rest
    (t.1, r.2 :: t.2)

/-- The abstract model of a Set: a finite set of values.  `Add` inserts and
reports prior absence, `Remove` erases and reports prior membership. -/
def absRun : Finset SVal → List SetOp → Finset SVal × List Bool
  | A, [] => (A, [])
  | A, .add v :: rest =>
    let t := absRun (insert v A) rest
    (t.1, decide (v ∉ A) :: t.2)
  | A, .rem v :: rest =>
    let t := absRun (A.erase v) rest
    (t.1, decide (v ∈ A) :: t.2)

/-! ## List values -/

inductive LVal where
  | int (n : Int)
  | str (s : String)
deriving DecidableEq

/-- `ll2string`: canonical decimal rendering of a signed integer. -/
def ll2string (n : Int) : String := toString n

/-- `getDecodedObject`: the byte-string content of a list value; an
integer-encoded object decodes to its canonical decimal text. -/
def lvalDecoded : LVal → String
  | .int n => ll2string n
  | .str s => s

/-! ## List backends

Modelled from the spec: the Compact Sequential backend is "a single
growable byte buffer of length-prefixed entries".  We keep the entries as
logical byte strings together with the buffer's total byte size
(`lpBytes`); how many bytes an entry occupies is the collaborator's
business, abstracted by `ListConfig.lpEntryCost`. -/
structure LP where
  entries : List String
  bytes : Nat
deriving DecidableEq

/-- Read-only configuration and collaborator accounting for the List
façade. -/
structure ListConfig where
  /-- `list-max-listpack-size` (the `fill` bound): nonnegative means an
  element-count bound, negative selects a byte-size level. -/
  fill : Int
  /-- Modelled from the spec: the byte-size level table selected by a
  negative bound (`optimization_level`). -/
  optLevel : Nat → Nat
  /-- Bytes an entry of the given content occupies in a listpack. -/
  lpEntryCost : String → Nat
  /-- Bytes of an empty listpack (header and terminator). -/
  lpHeaderBytes : Nat

/-- Modelled from the spec: "a configured bound is either a byte-size limit
or an element-count limit (mutually exclusive, selected by the bound's
sign/magnitude convention); evaluate against both current bytes_total and
element_count as applicable" — `none` marks the inapplicable limit, which
constrains nothing.  Returns (size limit, count limit). -/
def quicklistNodeLimit (cfg : ListConfig) : Option Nat × Option Nat :=
  if 0 ≤ cfg.fill then (none, some cfg.fill.toNat)
  else (some (cfg.optLevel ((-cfg.fill).toNat - 1)), none)

/-- An applicable limit is exceeded by the value; an inapplicable one never
is. -/
def limGt (n : Nat) : Option Nat → Bool
  | none => false
  | some l => n > l

/-- Modelled from the spec: `quicklistNodeExceedsLimit` — the projected
footprint exceeds the applicable node bound. -/
def quicklistNodeExceedsLimit (cfg : ListConfig) (new_sz new_count : Nat) : Bool :=
  let lim := quicklistNodeLimit cfg
  limGt new_sz lim.1 || limGt new_count lim.2

inductive Container where
  | packed
  | plain
deriving DecidableEq

/-- Modelled from the spec: a Linked-Node backend node — container kind
plus payload; for a packed node the payload is a listpack. -/
structure QLNode where
  container : Container
  entry : LP
deriving DecidableEq

/-- Head-node introspection: node byte size (the byte size of the node's
listpack). -/
def QLNode.sz (nd : QLNode) : Nat := nd.entry.bytes

/-- Head-node introspection: node element count. -/
def QLNode.cnt (nd : QLNode) : Nat := nd.entry.entries.length

/-- Modelled from the spec: the Linked-Node backend, a "doubly linked
sequence of packed-or-plain nodes" (head first). -/
structure Quicklist where
  nodes : List QLNode
deriving DecidableEq

def Quicklist.len (ql : Quicklist) : Nat := ql.nodes.length

def Quicklist.count (ql : Quicklist) : Nat := (ql.nodes.map QLNode.cnt).sum

def Quicklist.elems (ql : Quicklist) : List String :=
  (ql.nodes.map (fun nd => nd.entry.entries)).flatten

/-- Backing store of a List; the constructor is the encoding tag. -/
inductive ListStore where
  | listpack (lp : LP)
  | quicklist (ql : Quicklist)
deriving DecidableEq

inductive ListEnc where
  | listpack
  | quicklist
deriving DecidableEq

def ListStore.enc : ListStore → ListEnc
  | .listpack _ => .listpack
  | .quicklist _ => .quicklist

/-- The stored elements of a List, head first, as byte strings. -/
def ListStore.elems : ListStore → List String
  | .listpack lp => lp.entries
  | .quicklist ql => ql.elems

/-! ## List conversion -/

/-- Byte contribution of the about-to-add values: only string-encoded
objects are counted (`sdsEncodedObject` check), because an integer
object's rendered length is not known in constant time. -/
def addBytesOf (vs : List LVal) : Nat :=
  (vs.map (fun v => match v with | .int _ => 0 | .str s => s.length)).sum

/-- `listTypeTryConvertListpack`: with the byte lengths and count of the
about-to-add values (`argv`, `NULL` = `none`) added to the current
footprint, promote to a quicklist when the projected footprint exceeds the
node bound.  A non-empty listpack becomes the single packed node of the
new quicklist (`quicklistAppendListpack`); an empty one is released. -/
def listTypeTryConvertListpack (cfg : ListConfig) (lp : LP)
    (argv : Option (List LVal)) : ListStore :=
  let add_bytes := match argv with | none => 0 | some vs => addBytesOf vs
  let add_length := match argv with | none => 0 | some vs => vs.length
  if quicklistNodeExceedsLimit cfg (lp.bytes + add_bytes)
      (lp.entries.length + add_length) then
    if lp.entries.length ≠ 0 then .quicklist ⟨[⟨.packed, lp⟩]⟩
    else .quicklist ⟨[]⟩
  else .listpack lp

/-- Halve the applicable limits when the conversion is shrink-triggered
(`sz_limit /= 2; count_limit /= 2`). -/
def halveIf (shrinking : Bool) (l : Option Nat) : Option Nat :=
  if shrinking then l.map (· / 2) else l

/-- `listTypeTryConvertQuicklist`: demote to a listpack only when the
quicklist has exactly one packed node and neither the node's byte size nor
the total count exceeds the (possibly halved) applicable limits; the
demoted store is the unique node's listpack. -/
def listTypeTryConvertQuicklist (cfg : ListConfig) (ql : Quicklist)
    (shrinking : Bool) : ListStore :=
  match ql.nodes with
  | [head] =>
    if head.container = .packed then
      let sz_limit := halveIf shrinking (quicklistNodeLimit cfg).1
      let count_limit := halveIf shrinking (quicklistNodeLimit cfg).2
      if limGt head.sz sz_limit || limGt ql.count count_limit then .quicklist ql
      else .listpack head.entry
    else .quicklist ql
  | _ => .quicklist ql

inductive ListConvType where
  | auto
  | growing
  | shrinking
deriving DecidableEq

/-- `listTypeTryConversionRaw`: dispatch the applicable conversion check
for the current encoding; Growing is meaningless on a quicklist and
Shrinking on a listpack. -/
def listTypeTryConversionRaw (cfg : ListConfig) (o : ListStore)
    (lct : ListConvType) (argv : Option (List LVal)) : ListStore :=
  match o with
  | .quicklist ql =>
    if lct = .growing then .quicklist ql
    else listTypeTryConvertQuicklist cfg ql (lct = .shrinking)
  | .listpack lp =>
    if lct = .shrinking then .listpack lp
    else listTypeTryConvertListpack cfg lp argv

/-! ## List push -/

inductive Where where
  | head
  | tail
deriving DecidableEq

def lpPrependE (cfg : ListConfig) (lp : LP) (s : String) : LP :=
  ⟨s :: lp.entries, lp.bytes + cfg.lpEntryCost s⟩

def lpAppendE (cfg : ListConfig) (lp : LP) (s : String) : LP :=
  ⟨lp.entries ++ [s], lp.bytes + cfg.lpEntryCost s⟩

/-- Modelled from the spec: a listpack stores an integer entry identically
to the entry holding the canonical decimal string of the same value (the
buffer normalizes integer-representable strings), so appending an integer
appends its decimal text. -/
def lpAppendInteger (cfg : ListConfig) (lp : LP) (n : Int) : LP :=
  lpAppendE cfg lp (ll2string n)

def lpPrependInteger (cfg : ListConfig) (lp : LP) (n : Int) : LP :=
  lpPrependE cfg lp (ll2string n)

/-- A fresh packed node holding one element. -/
def qlNodeSingleton (cfg : ListConfig) (s : String) : QLNode :=
  ⟨.packed, ⟨[s], cfg.lpHeaderBytes + cfg.lpEntryCost s⟩⟩

/-- Whether an element can be merged into an existing boundary node. -/
def qlFits (cfg : ListConfig) (nd : QLNode) (s : String) : Bool :=
  nd.container = .packed &&
    !quicklistNodeExceedsLimit cfg (nd.sz + cfg.lpEntryCost s) (nd.cnt + 1)

def qlPushTailNodes (cfg : ListConfig) : List QLNode → String → List QLNode
  | [], s => [qlNodeSingleton cfg s]
  | [h], s =>
    if qlFits cfg h s then [⟨h.container, lpAppendE cfg h.entry s⟩]
    else [h, qlNodeSingleton cfg s]
  | h :: t, s => h :: qlPushTailNodes cfg t s

/-- Modelled from the spec: Linked-Node "push at either end" — the element
goes into the boundary node when it is packed and the grown node stays
within the node bound, otherwise a fresh packed node is linked at that
end. -/
def quicklistPush (cfg : ListConfig) (ql : Quicklist) (s : String)
    (wh : Where) : Quicklist :=
  match wh with
  | .head =>
    match ql.nodes with
    | [] => ⟨[qlNodeSingleton cfg s]⟩
    | h :: t =>
      if qlFits cfg h s then ⟨⟨h.container, lpPrependE cfg h.entry s⟩ :: t⟩
      else ⟨qlNodeSingleton cfg s :: h :: t⟩
  | .tail => ⟨qlPushTailNodes cfg ql.nodes s⟩

/-- `listTypePush`: push one value at the chosen end.  In the quicklist
branch an integer-encoded value is rendered to decimal text (`ll2string`)
and pushed as bytes; in the listpack branch the Integer append/prepend
variant of the collaborator is used. -/
def listTypePush (cfg : ListConfig) (o : ListStore) (v : LVal)
    (wh : Where) : ListStore :=
  match o with
  | .quicklist ql =>
    match v with
    | .int n => .quicklist (quicklistPush cfg ql (ll2string n) wh)
    | .str s => .quicklist (quicklistPush cfg ql s wh)
  | .listpack lp =>
    match v with
    | .int n =>
      .listpack (match wh with
        | .head => lpPrependInteger cfg lp n
        | .tail => lpAppendInteger cfg lp n)
    | .str s =>
      .listpack (match wh with
        | .head => lpPrependE cfg lp s
        | .tail => lpAppendE cfg lp s)

/-! ## Listpack iterator cursor

Listpack positions are modelled as indices into the entry list; `none` is
the NULL pointer. -/

/-- `lpPrev`: the position before `j`, NULL at the front. -/
def lpPrevIdx (j : Nat) : Option Nat := if j = 0 then none else some (j - 1)

/-- `lpNext`: the position after `j`, NULL past the back. -/
def lpNextIdx (l : List String) (j : Nat) : Option Nat :=
  if j + 1 < l.length then some (j + 1) else none

/-- `lpLast`: the last position, NULL when empty. -/
def lpLastIdx (l : List String) : Option Nat :=
  if l.length = 0 then none else some (l.length - 1)

/-- `lpDelete(lp, p, &p)`: delete the entry at index `i`; the returned
position points at the entry that followed the deleted one (the same index
in the shortened list), or NULL when the deleted entry was last. -/
def lpDeleteIdx (l : List String) (i : Nat) : List String × Option Nat :=
  (l.eraseIdx i, if i + 1 < l.length then some i else none)

/-- `listTypeDelete`, listpack branch: delete the iterator-provided entry
at index `i` and update the iterator cursor according to the direction
(`Where.tail` = LIST_TAIL, moving toward the tail; `Where.head` = moving
toward the head).  Returns the new entry list and the new cursor. -/
def listTypeDeleteLp (l : List String) (i : Nat) (dir : Where) :
    List String × Option Nat :=
  let r := lpDeleteIdx l i
  match dir with
  | .tail => (r.1, r.2)
  | .head =>
    (r.1, match r.2 with
      | some j => lpPrevIdx j
      | none => lpLastIdx r.1)

/-- `listTypeNext`, listpack branch: yield the index under the cursor and
advance in the current direction; a NULL cursor ends the iteration
(returns `none`). -/
def listTypeNextLp (l : List String) (cursor : Option Nat) (dir : Where) :
    Option (Nat × Option Nat) :=
  match cursor with
  | none => none
  | some j =>
    some (j, match dir with
      | .tail => lpNextIdx l j
      | .head => lpPrevIdx j)

/-! ## Concrete configurations used in scenarios -/

/-- A set configuration with the default bounds; listpack byte accounting
charges each element its length, hash-table presizing always succeeds. -/
def cfgSetW : SetConfig :=
  ⟨512, 128, 64, 1000000, fun l => (l.map svalLen).sum,
    fun v n => n * sdigits10 v, fun _ => true⟩

/-- A set configuration whose bounds are all zero (every growth gate
fails) and whose hash-table presizing always fails. -/
def cfgSetZero : SetConfig :=
  ⟨0, 0, 0, 0, fun l => (l.map svalLen).sum,
    fun v n => n * sdigits10 v, fun _ => false⟩

/-- A byte-size-bounded list configuration: bound level 0 is 64 bytes; an
entry is charged its content length. -/
def cfgBytes64 : ListConfig := ⟨-1, fun _ => 64, String.length, 7⟩

/-- An element-count-bounded list configuration. -/
def cfgCount (k : Nat) : ListConfig := ⟨(k : Int), fun _ => 0, String.length, 7⟩

/-- A concrete operation sequence crossing encodings: integer adds, a
string add (listpack conversion), a duplicate add, removals of present and
absent values. -/
def opsW : List SetOp :=
  [.add (.int 100), .add (.str "hello"), .add (.int 100), .add (.int 7),
   .rem (.str "hello"), .rem (.str "absent"), .add (.str "world"),
   .rem (.int 100)]

/-! # Helper lemmas -/

theorem intsetAdd_cons_lt {x v : Int} (xs : List Int) (h : v < x) :
    intsetAdd (x :: xs) v = (v :: x :: xs, true) := by
  simp [intsetAdd, h]

theorem intsetAdd_cons_eq {x v : Int} (xs : List Int) (h : v = x) :
    intsetAdd (x :: xs) v = (x :: xs, false) := by
  subst h
  simp [intsetAdd]

theorem intsetAdd_cons_gt {x v : Int} (xs : List Int) (h : x < v) :
    intsetAdd (x :: xs) v = (x :: (intsetAdd xs v).1, (intsetAdd xs v).2) := by
  have h1 : ¬ v < x := by omega
  have h2 : v ≠ x := by omega
  simp [intsetAdd, h1, h2]

theorem intsetAdd_mem (l : List Int) (v y : Int) :
    y ∈ (intsetAdd l v).1 ↔ y = v ∨ y ∈ l := by
  induction l with
  | nil => simp [intsetAdd]
  | cons x xs ih =>
    rcases lt_trichotomy v x with h1 | h1 | h1
    · simp only [intsetAdd_cons_lt xs h1, List.mem_cons]
    · simp only [intsetAdd_cons_eq xs h1, List.mem_cons]
      subst h1
      tauto
    · simp only [intsetAdd_cons_gt xs h1, List.mem_cons, ih]
      tauto

theorem intsetAdd_snd (l : List Int) (v : Int) (h : l.Pairwise (· < ·)) :
    (intsetAdd l v).2 = true ↔ v ∉ l := by
  induction l with
  | nil => simp [intsetAdd]
  | cons x xs ih =>
    rcases List.pairwise_cons.1 h with ⟨hx, hxs⟩
    rcases lt_trichotomy v x with h1 | h1 | h1
    · have hvx : v ≠ x := ne_of_lt h1
      have hvxs : v ∉ xs := fun hm => absurd (hx v hm) (by omega)
      simp [intsetAdd_cons_lt xs h1, hvx, hvxs]
    · subst h1
      simp [intsetAdd_cons_eq xs rfl]
    · have h2 : v ≠ x := h1.ne'
      simp [intsetAdd_cons_gt xs h1, List.mem_cons, ih hxs, h2]

theorem intsetAdd_fst_of_mem (l : List Int) (v : Int) (h : l.Pairwise (· < ·))
    (hm : v ∈ l) : (intsetAdd l v).1 = l := by
  induction l with
  | nil => simp at hm
  | cons x xs ih =>
    rcases List.pairwise_cons.1 h with ⟨hx, hxs⟩
    rcases List.mem_cons.1 hm with rfl | hm2
    · simp [intsetAdd_cons_eq xs rfl]
    · simp [intsetAdd_cons_gt xs (hx v hm2), ih hxs hm2]

theorem intsetAdd_pairwise (l : List Int) (v : Int) (h : l.Pairwise (· < ·)) :
    (intsetAdd l v).1.Pairwise (· < ·) := by
  induction l with
  | nil => simp [intsetAdd]
  | cons x xs ih =>
    rcases List.pairwise_cons.1 h with ⟨hx, hxs⟩
    rcases lt_trichotomy v x with h1 | h1 | h1
    · rw [intsetAdd_cons_lt xs h1]
      refine List.pairwise_cons.2 ⟨?_, h⟩
      intro y hy
      rcases List.mem_cons.1 hy with rfl | hy2
      · exact h1
      · exact h1.trans (hx y hy2)
    · rw [intsetAdd_cons_eq xs h1]
      exact h
    · rw [intsetAdd_cons_gt xs h1]
      refine List.pairwise_cons.2 ⟨?_, ih hxs⟩
      intro y hy
      rcases (intsetAdd_mem xs v y).1 hy with rfl | hy2
      · exact h1
      · exact hx y hy2

theorem intsetAdd_toFinset (l : List Int) (v : Int) :
    (intsetAdd l v).1.toFinset = insert v l.toFinset := by
  ext y
  simp [intsetAdd_mem]

theorem intsetRemove_cons_lt {x v : Int} (xs : List Int) (h : v < x) :
    intsetRemove (x :: xs) v = (x :: xs, false) := by
  simp [intsetRemove, h]

theorem intsetRemove_cons_eq {x v : Int} (xs : List Int) (h : v = x) :
    intsetRemove (x :: xs) v = (xs, true) := by
  subst h
  simp [intsetRemove]

theorem intsetRemove_cons_gt {x v : Int} (xs : List Int) (h : x < v) :
    intsetRemove (x :: xs) v = (x :: (intsetRemove xs v).1, (intsetRemove xs v).2) := by
  have h1 : ¬ v < x := by omega
  have h2 : v ≠ x := by omega
  simp [intsetRemove, h1, h2]

theorem intsetRemove_sublist (l : List Int) (v : Int) :
    (intsetRemove l v).1.Sublist l := by
  induction l with
  | nil => simp [intsetRemove]
  | cons x xs ih =>
    rcases lt_trichotomy v x with h1 | h1 | h1
    · simp [intsetRemove_cons_lt xs h1]
    · rw [intsetRemove_cons_eq xs h1]
      exact List.sublist_cons_self x xs
    · simpa [intsetRemove_cons_gt xs h1] using ih.cons₂ x

theorem intsetRemove_snd (l : List Int) (v : Int) (h : l.Pairwise (· < ·)) :
    (intsetRemove l v).2 = true ↔ v ∈ l := by
  induction l with
  | nil => simp [intsetRemove]
  | cons x xs ih =>
    rcases List.pairwise_cons.1 h with ⟨hx, hxs⟩
    rcases lt_trichotomy v x with h1 | h1 | h1
    · have hvx : v ≠ x := ne_of_lt h1
      have hvxs : v ∉ xs := fun hm => absurd (hx v hm) (by omega)
      simp [intsetRemove_cons_lt xs h1, hvx, hvxs]
    · subst h1
      simp [intsetRemove_cons_eq xs rfl]
    · have h2 : v ≠ x := h1.ne'
      simp [intsetRemove_cons_gt xs h1, List.mem_cons, ih hxs, h2]

theorem intsetRemove_mem (l : List Int) (v y : Int) (h : l.Pairwise (· < ·)) :
    y ∈ (intsetRemove l v).1 ↔ y ∈ l ∧ y ≠ v := by
  induction l with
  | nil => simp [intsetRemove]
  | cons x xs ih =>
    rcases List.pairwise_cons.1 h with ⟨hx, hxs⟩
    rcases lt_trichotomy v x with h1 | h1 | h1
    · have hnv : v ∉ x :: xs := by
        simp only [List.mem_cons]
        push_neg
        exact ⟨ne_of_lt h1, fun hm => absurd (hx v hm) (by omega)⟩
      rw [intsetRemove_cons_lt xs h1]
      constructor
      · intro hy
        exact ⟨hy, fun hyv => hnv (hyv ▸ hy)⟩
      · exact fun hy => hy.1
    · subst h1
      have hxn : v ∉ xs := fun hm => absurd (hx v hm) (lt_irrefl v)
      rw [intsetRemove_cons_eq xs rfl]
      simp only [List.mem_cons]
      constructor
      · intro hy
        exact ⟨Or.inr hy, fun hyv => hxn (hyv ▸ hy)⟩
      · rintro ⟨rfl | hy, hne⟩
        · exact absurd rfl hne
        · exact hy
    · rw [intsetRemove_cons_gt xs h1]
      simp only [List.mem_cons]
      constructor
      · rintro (rfl | hy)
        · exact ⟨Or.inl rfl, h1.ne'.symm⟩
        · rcases (ih hxs).1 hy with ⟨hmem, hne⟩
          exact ⟨Or.inr hmem, hne⟩
      · rintro ⟨rfl | hy, hne⟩
        · exact Or.inl rfl
        · exact Or.inr ((ih hxs).2 ⟨hy, hne⟩)

theorem intsetRemove_toFinset (l : List Int) (v : Int) (h : l.Pairwise (· < ·)) :
    (intsetRemove l v).1.toFinset = l.toFinset.erase v := by
  ext y
  simp [intsetRemove_mem l v y h, Finset.mem_erase, and_comm]

theorem svalInt_injective : Function.Injective SVal.int := fun a b hab => by
  injection hab

theorem nodup_append_singleton {l : List SVal} {v : SVal} (h : l.Nodup)
    (hm : v ∉ l) : (l ++ [v]).Nodup := by
  simp [List.nodup_append, h, hm]

theorem toFinset_append_singleton (l : List SVal) (v : SVal) :
    (l ++ [v]).toFinset = insert v l.toFinset := by
  ext y
  simp [or_comm]

theorem toFinset_map_int (l : List Int) :
    (l.map SVal.int).toFinset = l.toFinset.image SVal.int := by
  ext y
  cases y <;> simp

theorem toFinset_erase_nodup (l : List SVal) (v : SVal) (h : l.Nodup) :
    (l.erase v).toFinset = l.toFinset.erase v := by
  ext y
  simp [h.mem_erase_iff, Finset.mem_erase]

theorem nodup_map_int {l : List Int} (h : l.Pairwise (· < ·)) :
    (l.map SVal.int).Nodup :=
  List.Nodup.map svalInt_injective (h.imp fun hlt => ne_of_lt hlt)

theorem str_not_mem_map_int (l : List Int) (s : String) :
    SVal.str s ∉ l.map SVal.int := by
  simp

theorem good_nodup (o : SetStore) (h : o.good) : o.members.Nodup := by
  cases o with
  | intset l => exact nodup_map_int h
  | listpack l => exact h
  | ht l => exact h

theorem setTypeSize_eq (o : SetStore) : setTypeSize o = o.members.length := by
  cases o <;> simp [setTypeSize, SetStore.members]

theorem maybeConvertIntset_members (cfg : SetConfig) (l : List Int) :
    (maybeConvertIntset cfg l).members = l.map SVal.int := by
  unfold maybeConvertIntset convertPanic setTypeConvertAndExpand
  split <;> simp [SetStore.members]

theorem maybeConvertIntset_good (cfg : SetConfig) (l : List Int)
    (h : l.Pairwise (· < ·)) : (maybeConvertIntset cfg l).good := by
  unfold maybeConvertIntset convertPanic setTypeConvertAndExpand
  split
  · exact nodup_map_int h
  · exact h

/-- One `Add` is faithful to the abstract model: the flag reports prior
absence, well-formedness is preserved, and the member set gains the
value. -/
theorem setTypeAdd_step (cfg : SetConfig) (o : SetStore) (v : SVal) (h : o.good) :
    ((setTypeAdd cfg o v).2 = true ↔ v ∉ o.members)
    ∧ (setTypeAdd cfg o v).1.good
    ∧ (setTypeAdd cfg o v).1.members.toFinset = insert v o.members.toFinset := by
  cases o with
  | ht l =>
    simp only [setTypeAdd]
    split_ifs with hm
    · refine ⟨by simp [SetStore.members, hm], h, ?_⟩
      simp only [SetStore.members]
      exact (Finset.insert_eq_self.2 (List.mem_toFinset.2 hm)).symm
    · exact ⟨by simp [SetStore.members, hm], nodup_append_singleton h hm,
        toFinset_append_singleton l v⟩
  | listpack l =>
    simp only [setTypeAdd]
    split_ifs with hm hg
    · refine ⟨by simp [SetStore.members, hm], h, ?_⟩
      simp only [SetStore.members]
      exact (Finset.insert_eq_self.2 (List.mem_toFinset.2 hm)).symm
    · exact ⟨by simp [SetStore.members, hm], nodup_append_singleton h hm,
        toFinset_append_singleton l v⟩
    · simp only [convertPanic, setTypeConvertAndExpand, dictAddToSet, SetStore.members]
      exact ⟨by simp [hm], nodup_append_singleton h hm,
        toFinset_append_singleton l v⟩
  | intset l =>
    cases v with
    | int n =>
      simp only [setTypeAdd]
      by_cases hs : (intsetAdd l n).2 = true
      · rw [if_pos hs]
        refine ⟨?_, maybeConvertIntset_good cfg _ (intsetAdd_pairwise l n h), ?_⟩
        · have hnl : n ∉ l := (intsetAdd_snd l n h).1 hs
          simp [SetStore.members, hnl]
        · rw [maybeConvertIntset_members, toFinset_map_int, intsetAdd_toFinset,
            Finset.image_insert]
          simp only [SetStore.members, toFinset_map_int]
      · rw [if_neg hs]
        have hnl : n ∈ l := by
          by_contra hnl
          exact hs ((intsetAdd_snd l n h).2 hnl)
        rw [intsetAdd_fst_of_mem l n h hnl]
        refine ⟨by simp [SetStore.members, hnl], h, ?_⟩
        simp only [SetStore.members]
        refine (Finset.insert_eq_self.2 ?_).symm
        simp [hnl]
    | str s =>
      simp only [setTypeAdd]
      by_cases hg : intsetNonIntGate cfg l s.length
      · rw [if_pos hg]
        simp only [convertPanic, setTypeConvertAndExpand, SetStore.members]
        refine ⟨by simp, ?_, ?_⟩
        · exact nodup_append_singleton (nodup_map_int h) (str_not_mem_map_int l s)
        · exact toFinset_append_singleton (l.map SVal.int) (SVal.str s)
      · rw [if_neg hg]
        simp only [convertPanic, setTypeConvertAndExpand, dictAddToSet,
          SetStore.members]
        refine ⟨by simp, ?_, ?_⟩
        · exact nodup_append_singleton (nodup_map_int h) (str_not_mem_map_int l s)
        · exact toFinset_append_singleton (l.map SVal.int) (SVal.str s)

/-- One `Remove` is faithful to the abstract model: the flag reports prior
membership, well-formedness is preserved, and the member set loses the
value. -/
theorem setTypeRemove_step (o : SetStore) (v : SVal) (h : o.good) :
    ((setTypeRemove o v).2 = true ↔ v ∈ o.members)
    ∧ (setTypeRemove o v).1.good
    ∧ (setTypeRemove o v).1.members.toFinset = o.members.toFinset.erase v := by
  cases o with
  | ht l =>
    simp only [setTypeRemove]
    split_ifs with hm
    · exact ⟨by simp [SetStore.members, hm], h.erase v, toFinset_erase_nodup l v h⟩
    · refine ⟨by simp [SetStore.members, hm], h, ?_⟩
      simp only [SetStore.members]
      exact (Finset.erase_eq_self.2 (fun hc => hm (List.mem_toFinset.1 hc))).symm
  | listpack l =>
    simp only [setTypeRemove]
    split_ifs with hm
    · exact ⟨by simp [SetStore.members, hm], h.erase v, toFinset_erase_nodup l v h⟩
    · refine ⟨by simp [SetStore.members, hm], h, ?_⟩
      simp only [SetStore.members]
      exact (Finset.erase_eq_self.2 (fun hc => hm (List.mem_toFinset.1 hc))).symm
  | intset l =>
    cases v with
    | int n =>
      simp only [setTypeRemove]
      refine ⟨?_, h.sublist (intsetRemove_sublist l n), ?_⟩
      · simp [SetStore.members, intsetRemove_snd l n h]
      · show ((intsetRemove l n).1.map SVal.int).toFinset = _
        rw [toFinset_map_int, intsetRemove_toFinset l n h,
          Finset.image_erase svalInt_injective]
        simp only [SetStore.members, toFinset_map_int]
    | str s =>
      simp only [setTypeRemove]
      refine ⟨by simp [SetStore.members], h, ?_⟩
      simp only [SetStore.members]
      refine (Finset.erase_eq_self.2 ?_).symm
      simp

/-- Every run preserves well-formedness and refines the abstract model. -/
theorem runOps_inv (cfg : SetConfig) (ops : List SetOp) :
    ∀ o : SetStore, o.good →
      (runOps cfg o ops).1.good
      ∧ (runOps cfg o ops).1.members.toFinset = (absRun o.members.toFinset ops).1
      ∧ (runOps cfg o ops).2 = (absRun o.members.toFinset ops).2 := by
  induction ops with
  | nil =>
    intro o h
    exact ⟨h, rfl, rfl⟩
  | cons op rest ih =>
    intro o h
    cases op with
    | add v =>
      obtain ⟨hf, hg, hm⟩ := setTypeAdd_step cfg o v h
      obtain ⟨ig, im, ifl⟩ := ih (setTypeAdd cfg o v).1 hg
      have hflag : (setTypeAdd cfg o v).2 = decide (v ∉ o.members.toFinset) := by
        by_cases hv : v ∈ o.members
        · have hfalse : (setTypeAdd cfg o v).2 = false := by
            rcases Bool.eq_false_or_eq_true (setTypeAdd cfg o v).2 with hb | hb
            · exact absurd hv (hf.1 hb)
            · exact hb
          simp [hfalse, List.mem_toFinset, hv]
        · simp [hf.2 hv, List.mem_toFinset, hv]
      simp only [runOps, applyOp, absRun]
      refine ⟨ig, ?_, ?_⟩
      · rw [im, hm]
      · rw [ifl, hm, hflag]
    | rem v =>
      obtain ⟨hf, hg, hm⟩ := setTypeRemove_step o v h
      obtain ⟨ig, im, ifl⟩ := ih (setTypeRemove o v).1 hg
      have hflag : (setTypeRemove o v).2 = decide (v ∈ o.members.toFinset) := by
        by_cases hv : v ∈ o.members
        · simp [hf.2 hv, List.mem_toFinset, hv]
        · have hfalse : (setTypeRemove o v).2 = false := by
            rcases Bool.eq_false_or_eq_true (setTypeRemove o v).2 with hb | hb
            · exact absurd (hf.1 hb) hv
            · exact hb
          simp [hfalse, List.mem_toFinset, hv]
      simp only [runOps, applyOp, absRun]
      refine ⟨ig, ?_, ?_⟩
      · rw [im, hm]
      · rw [ifl, hm, hflag]

/-! # Claim theorems -/

/-- C1: for every finite sequence of `Add`/`Remove` operations applied to a
well-formed Set, the final `Size` equals the cardinality of the abstract
member set — the distinct values whose latest successful operation was an
`Add` — regardless of which encodings the set traversed; and the flag
trace matches the abstract model: each `Add` returns 1 exactly when the
value was not already a member, each `Remove` returns 1 exactly when it
was a member. -/
theorem setOpsSequenceFaithful (cfg : SetConfig) (o : SetStore) (h : o.good)
    (ops : List SetOp) :
    setTypeSize (runOps cfg o ops).1 = (absRun o.members.toFinset ops).1.card
    ∧ (runOps cfg o ops).2 = (absRun o.members.toFinset ops).2 := by
  obtain ⟨hg, hm, hfl⟩ := runOps_inv cfg ops o h
  refine ⟨?_, hfl⟩
  rw [setTypeSize_eq, ← List.toFinset_card_of_nodup (good_nodup _ hg), hm]

/-- Witness for C1: the theorem applied to the empty intset and a concrete
operation sequence that traverses intset, listpack and duplicate/missing
cases. -/
theorem setOpsSequenceFaithful_witness :
    SetStore.good (.intset [])
    ∧ (setTypeSize (runOps cfgSetW (.intset []) opsW).1
        = (absRun (SetStore.members (.intset [])).toFinset opsW).1.card
      ∧ (runOps cfgSetW (.intset []) opsW).2
        = (absRun (SetStore.members (.intset [])).toFinset opsW).2) :=
  ⟨by decide, setOpsSequenceFaithful cfgSetW (.intset []) (by decide) opsW⟩

/-- C5: the Set encoding tag only moves forward along
IntegerSet -> CompactSequential -> HashTable: every Add either preserves
the encoding or advances it in that order, and Remove never changes the
encoding tag. -/
theorem setEncodingMonotone (cfg : SetConfig) (o : SetStore) (v : SVal) :
    o.enc.rank ≤ (setTypeAdd cfg o v).1.enc.rank
    ∧ (setTypeRemove o v).1.enc = o.enc := by
  constructor
  · cases o with
    | ht l =>
      simp only [setTypeAdd]
      split_ifs <;> simp [SetStore.enc, SetEnc.rank]
    | listpack l =>
      simp only [setTypeAdd]
      split_ifs <;>
        simp [SetStore.enc, SetEnc.rank, convertPanic, setTypeConvertAndExpand,
          dictAddToSet, SetStore.members]
    | intset l =>
      cases v with
      | int n =>
        simp only [setTypeAdd]
        split_ifs
        · unfold maybeConvertIntset convertPanic setTypeConvertAndExpand
          split <;> simp [SetStore.enc, SetEnc.rank]
        · simp [SetStore.enc, SetEnc.rank]
      | str s =>
        simp only [setTypeAdd]
        split_ifs <;>
          simp [SetStore.enc, SetEnc.rank, convertPanic, setTypeConvertAndExpand,
            dictAddToSet, SetStore.members]
  · cases o with
    | ht l =>
      simp only [setTypeRemove]
      split_ifs <;> simp [SetStore.enc]
    | listpack l =>
      simp only [setTypeRemove]
      split_ifs <;> simp [SetStore.enc]
    | intset l =>
      cases v <;> simp [setTypeRemove, SetStore.enc]

/-- C10: Add of a value that is already a member of a listpack-encoded set
returns 0 and leaves the set completely unchanged under every
configuration — no conversion happens even when the set already violates
the growth gates, because the membership scan precedes them and the gates
apply only to absent values. -/
theorem listpackAddMemberNoop (cfg : SetConfig) (l : List SVal) (v : SVal)
    (h : v ∈ l) :
    setTypeAdd cfg (.listpack l) v = (.listpack l, false) := by
  simp [setTypeAdd, h]

/-- Witness for C10: with every bound set to zero (all growth gates fail)
and a listpack already beyond those bounds, a duplicate Add is still a
pure no-op. -/
theorem listpackAddMemberNoop_witness :
    SVal.str "a" ∈ [SVal.str "a", SVal.str "bb"]
    ∧ setTypeAdd cfgSetZero (.listpack [SVal.str "a", SVal.str "bb"]) (.str "a")
        = (.listpack [SVal.str "a", SVal.str "bb"], false) :=
  ⟨by decide, listpackAddMemberNoop cfgSetZero _ _ (by decide)⟩

/-- C6: `setTypeConvertAndExpand` reports failure exactly when called with
allow_failure (panic=0), a hash-table target, and failing presizing; on
failure the original store is returned untouched; with panic=1 it never
returns an error; and on success the old backing is fully drained into the
new one — same member sequence, the target's encoding tag. -/
theorem setTypeConvertAndExpandSpec (cfg : SetConfig) (o : SetStore)
    (tgt : ConvTarget) (cap : Nat) (panic : Bool) (h : o.enc ≠ tgt.enc) :
    ((setTypeConvertAndExpand cfg o tgt cap panic).2 = false
      ↔ panic = false ∧ tgt = .toHT ∧ cfg.dictTryExpandOk cap = false)
    ∧ ((setTypeConvertAndExpand cfg o tgt cap panic).2 = false →
        (setTypeConvertAndExpand cfg o tgt cap panic).1 = o)
    ∧ ((setTypeConvertAndExpand cfg o tgt cap panic).2 = true →
        (setTypeConvertAndExpand cfg o tgt cap panic).1.members = o.members
        ∧ (setTypeConvertAndExpand cfg o tgt cap panic).1.enc = tgt.enc) := by
  cases tgt with
  | toHT =>
    cases panic with
    | false =>
      by_cases hok : cfg.dictTryExpandOk cap = true
      · simp [setTypeConvertAndExpand, hok, SetStore.members, ConvTarget.enc,
          SetStore.enc]
      · simp only [Bool.not_eq_true] at hok
        simp [setTypeConvertAndExpand, hok]
    | true =>
      simp [setTypeConvertAndExpand, SetStore.members, ConvTarget.enc,
        SetStore.enc]
  | toListpack =>
    simp [setTypeConvertAndExpand, SetStore.members, ConvTarget.enc,
      SetStore.enc]

/-- Witness for C6: with failing presizing and allow_failure set, the
conversion of a concrete intset reports the error and changes nothing. -/
theorem setTypeConvertAndExpandSpec_witness :
    (SetStore.intset [3]).enc ≠ ConvTarget.toHT.enc
    ∧ (((setTypeConvertAndExpand cfgSetZero (.intset [3]) .toHT 5 false).2 = false
        ↔ false = false ∧ ConvTarget.toHT = .toHT
          ∧ cfgSetZero.dictTryExpandOk 5 = false)
      ∧ ((setTypeConvertAndExpand cfgSetZero (.intset [3]) .toHT 5 false).2 = false →
          (setTypeConvertAndExpand cfgSetZero (.intset [3]) .toHT 5 false).1
            = .intset [3])
      ∧ ((setTypeConvertAndExpand cfgSetZero (.intset [3]) .toHT 5 false).2 = true →
          (setTypeConvertAndExpand cfgSetZero (.intset [3]) .toHT 5 false).1.members
            = (SetStore.intset [3]).members
          ∧ (setTypeConvertAndExpand cfgSetZero (.intset [3]) .toHT 5 false).1.enc
            = ConvTarget.toHT.enc)) :=
  ⟨by decide, setTypeConvertAndExpandSpec cfgSetZero (.intset [3]) .toHT 5 false (by decide)⟩

theorem intsetMin_le (l : List Int) (h : l.Pairwise (· < ·)) :
    ∀ y ∈ l, intsetMin l ≤ y := by
  intro y hy
  cases l with
  | nil => simp at hy
  | cons x xs =>
    rcases List.mem_cons.1 hy with rfl | hy2
    · exact le_refl _
    · exact le_of_lt ((List.pairwise_cons.1 h).1 y hy2)

theorem le_intsetMax (l : List Int) (h : l.Pairwise (· < ·)) :
    ∀ y ∈ l, y ≤ intsetMax l := by
  induction l with
  | nil =>
    intro y hy
    simp at hy
  | cons x xs ih =>
    intro y hy
    rcases List.pairwise_cons.1 h with ⟨hx, hxs⟩
    cases xs with
    | nil =>
      rcases List.mem_cons.1 hy with rfl | hy2
      · exact le_refl _
      · simp at hy2
    | cons x2 xs2 =>
      have hmax : intsetMax (x :: x2 :: xs2) = intsetMax (x2 :: xs2) := by
        simp [intsetMax, List.getLastD_eq_getLast?, List.getLast?_cons_cons]
      rcases List.mem_cons.1 hy with rfl | hy2
      · rw [hmax]
        exact le_trans (le_of_lt (hx x2 (by simp)))
          (ih hxs x2 (List.mem_cons_self x2 xs2))
      · rw [hmax]
        exact ih hxs y hy2

/-- C7: Add of a non-integer-representable value onto an intset-encoded
set estimates the converted footprint with the wider of the decimal widths
of the current minimum and maximum standing in for every element
(`intsetMaxEleLen`, `intsetConvEstimate`); if the count is below the
listpack entry bound, the new value's length and the stand-in width both
fit the element-length bound, and the conservative estimate passes the
addressable-size guard (`intsetNonIntGate`), the set converts to listpack
and the value is appended there, otherwise it converts to hash table and
the value is inserted there; either way Add returns 1.  Under
well-formedness `intsetMin`/`intsetMax` are the true extremes. -/
theorem intsetNonIntAddSpec (cfg : SetConfig) (l : List Int) (s : String)
    (h : (SetStore.intset l).good) :
    (setTypeAdd cfg (.intset l) (.str s)).2 = true
    ∧ (intsetNonIntGate cfg l s.length →
        (setTypeAdd cfg (.intset l) (.str s)).1
          = .listpack (l.map SVal.int ++ [.str s]))
    ∧ (¬ intsetNonIntGate cfg l s.length →
        (setTypeAdd cfg (.intset l) (.str s)).1
          = .ht (l.map SVal.int ++ [.str s]))
    ∧ (∀ y ∈ l, intsetMin l ≤ y ∧ y ≤ intsetMax l) := by
  refine ⟨?_, ?_, ?_, fun y hy => ⟨intsetMin_le l h y hy, le_intsetMax l h y hy⟩⟩
  · simp only [setTypeAdd]
    by_cases hg : intsetNonIntGate cfg l s.length
    · rw [if_pos hg]
      simp [convertPanic, setTypeConvertAndExpand, SetStore.members]
    · rw [if_neg hg]
  · intro hg
    simp only [setTypeAdd]
    rw [if_pos hg]
    simp [convertPanic, setTypeConvertAndExpand, SetStore.members]
  · intro hg
    simp only [setTypeAdd]
    rw [if_neg hg]
    simp [convertPanic, setTypeConvertAndExpand, dictAddToSet, SetStore.members]

/-- Witness for C7: a two-element intset receiving the non-integer
"abc"; the gate passes under the default bounds and the set converts to
listpack with the string appended. -/
theorem intsetNonIntAddSpec_witness :
    SetStore.good (.intset [-5, 120])
    ∧ ((setTypeAdd cfgSetW (.intset [-5, 120]) (.str "abc")).2 = true
      ∧ (intsetNonIntGate cfgSetW [-5, 120] ("abc").length →
          (setTypeAdd cfgSetW (.intset [-5, 120]) (.str "abc")).1
            = .listpack ([-5, 120].map SVal.int ++ [.str "abc"]))
      ∧ (¬ intsetNonIntGate cfgSetW [-5, 120] ("abc").length →
          (setTypeAdd cfgSetW (.intset [-5, 120]) (.str "abc")).1
            = .ht ([-5, 120].map SVal.int ++ [.str "abc"]))
      ∧ (∀ y ∈ [(-5 : Int), 120], intsetMin [-5, 120] ≤ y ∧ y ≤ intsetMax [-5, 120])) :=
  ⟨by decide, intsetNonIntAddSpec cfgSetW [-5, 120] "abc" (by decide)⟩

theorem quicklistPush_elems_head (cfg : ListConfig) (ql : Quicklist) (s : String) :
    (quicklistPush cfg ql s .head).elems = s :: ql.elems := by
  rcases ql with ⟨nodes⟩
  cases nodes with
  | nil => simp [quicklistPush, Quicklist.elems, qlNodeSingleton]
  | cons h t =>
    by_cases hf : qlFits cfg h s = true
    · simp [quicklistPush, hf, Quicklist.elems, lpPrependE]
    · simp [quicklistPush, hf, Quicklist.elems, qlNodeSingleton]

theorem qlPushTailNodes_elems (cfg : ListConfig) (s : String) :
    ∀ ns : List QLNode,
      ((qlPushTailNodes cfg ns s).map (fun nd => nd.entry.entries)).flatten
        = (ns.map (fun nd => nd.entry.entries)).flatten ++ [s]
  | [] => by simp [qlPushTailNodes, qlNodeSingleton]
  | [h] => by
    by_cases hf : qlFits cfg h s = true
    · simp [qlPushTailNodes, hf, lpAppendE]
    · simp [qlPushTailNodes, hf, qlNodeSingleton]
  | h :: h2 :: t => by
    simp [qlPushTailNodes, qlPushTailNodes_elems cfg s (h2 :: t)]

theorem quicklistPush_elems_tail (cfg : ListConfig) (ql : Quicklist) (s : String) :
    (quicklistPush cfg ql s .tail).elems = ql.elems ++ [s] := by
  rcases ql with ⟨nodes⟩
  simp [quicklistPush, Quicklist.elems, qlPushTailNodes_elems]

/-- C2: `listTypePush` stores the pushed value in the backend as its byte
content: the stored element sequence gains exactly the decoded bytes of
the value at the chosen end, an integer-valued input being written as its
canonical decimal text into either backend; and pushing an integer object
is indistinguishable from pushing its canonical decimal string — no
integer fast path at this layer. -/
theorem listPushStoresDecimalText (cfg : ListConfig) (o : ListStore)
    (v : LVal) (wh : Where) (n : Int) :
    (listTypePush cfg o v wh).elems
      = (match wh with
          | .head => lvalDecoded v :: o.elems
          | .tail => o.elems ++ [lvalDecoded v])
    ∧ listTypePush cfg o (.int n) wh = listTypePush cfg o (.str (ll2string n)) wh := by
  constructor
  · cases o with
    | listpack lp =>
      cases v with
      | int m =>
        cases wh <;>
          simp [listTypePush, ListStore.elems, lvalDecoded, lpPrependInteger,
            lpAppendInteger, lpPrependE, lpAppendE]
      | str s =>
        cases wh <;>
          simp [listTypePush, ListStore.elems, lvalDecoded, lpPrependE, lpAppendE]
    | quicklist ql =>
      cases v with
      | int m =>
        cases wh <;>
          simp [listTypePush, ListStore.elems, lvalDecoded,
            quicklistPush_elems_head, quicklistPush_elems_tail]
      | str s =>
        cases wh <;>
          simp [listTypePush, ListStore.elems, lvalDecoded,
            quicklistPush_elems_head, quicklistPush_elems_tail]
  · cases o with
    | listpack lp => cases wh <;> rfl
    | quicklist ql => cases wh <;> rfl

/-- C3 counterexample: under a byte-size bound of 64, a listpack of 62
bytes about to receive one integer payload of decimal width 5: the
post-insert footprint counting that payload's byte length exceeds the
bound, yet the Growing check converts nothing, because integer-encoded
values contribute no bytes to the projection (only their count). -/
theorem listpackGrowSkipsIntegerBytes :
    listTypeTryConversionRaw cfgBytes64
        (.listpack ⟨["0123456789012345678901234567890123456789"], 62⟩)
        .growing (some [LVal.int 12345])
      = .listpack ⟨["0123456789012345678901234567890123456789"], 62⟩
    ∧ quicklistNodeExceedsLimit cfgBytes64
        (62 + (lvalDecoded (LVal.int 12345)).length) (1 + 1) = true := by
  exact ⟨by decide, by decide⟩

/-- C3 (amended): on a listpack-encoded list with trigger Growing,
promotion to quicklist happens exactly when the post-insert projected
footprint — current bytes plus the byte lengths of the string-encoded
about-to-add payloads (integer-encoded inputs add only to the element
count), and current count plus the number of elements to add — exceeds
the configured bound; the stored elements are preserved either way, and
when the projection does not exceed the bound the store is returned
untouched, so single pushes convert exactly at the first projected
excess and never before. -/
theorem listpackGrowPostInsertProjection (cfg : ListConfig) (lp : LP)
    (argv : Option (List LVal)) :
    ((listTypeTryConversionRaw cfg (.listpack lp) .growing argv).enc = .quicklist
      ↔ quicklistNodeExceedsLimit cfg
          (lp.bytes + (match argv with | none => 0 | some vs => addBytesOf vs))
          (lp.entries.length + (match argv with | none => 0 | some vs => vs.length))
          = true)
    ∧ (listTypeTryConversionRaw cfg (.listpack lp) .growing argv).elems = lp.entries
    ∧ (quicklistNodeExceedsLimit cfg
          (lp.bytes + (match argv with | none => 0 | some vs => addBytesOf vs))
          (lp.entries.length + (match argv with | none => 0 | some vs => vs.length))
          = false →
        listTypeTryConversionRaw cfg (.listpack lp) .growing argv = .listpack lp) := by
  simp only [listTypeTryConversionRaw, listTypeTryConvertListpack]
  by_cases hex : quicklistNodeExceedsLimit cfg
      (lp.bytes + (match argv with | none => 0 | some vs => addBytesOf vs))
      (lp.entries.length + (match argv with | none => 0 | some vs => vs.length))
      = true
  · rw [if_neg (by decide : ¬ (ListConvType.growing = .shrinking)), if_pos hex]
    by_cases hz : lp.entries.length ≠ 0
    · rw [if_pos hz]
      simp [ListStore.enc, ListStore.elems, Quicklist.elems, hex]
    · rw [if_neg hz]
      simp only [not_not, List.length_eq_zero] at hz
      simp only [hz, List.length_nil, Nat.zero_add] at hex
      simp [ListStore.enc, ListStore.elems, Quicklist.elems, hz, hex]
  · rw [if_neg (by decide : ¬ (ListConvType.growing = .shrinking)), if_neg hex]
    simp [ListStore.enc, ListStore.elems, hex]

/-- Witness for C3 (amended) at a concrete listpack and payload batch
under an element-count bound. -/
theorem listpackGrowPostInsertProjection_witness :
    ((listTypeTryConversionRaw (cfgCount 4) (.listpack ⟨["a", "b"], 10⟩)
          .growing (some [LVal.str "xy"])).enc = .quicklist
      ↔ quicklistNodeExceedsLimit (cfgCount 4) (10 + addBytesOf [LVal.str "xy"])
          (2 + 1) = true)
    ∧ (listTypeTryConversionRaw (cfgCount 4) (.listpack ⟨["a", "b"], 10⟩)
        .growing (some [LVal.str "xy"])).elems = ["a", "b"]
    ∧ (quicklistNodeExceedsLimit (cfgCount 4) (10 + addBytesOf [LVal.str "xy"])
          (2 + 1) = false →
        listTypeTryConversionRaw (cfgCount 4) (.listpack ⟨["a", "b"], 10⟩)
            .growing (some [LVal.str "xy"])
          = .listpack ⟨["a", "b"], 10⟩) :=
  listpackGrowPostInsertProjection (cfgCount 4) ⟨["a", "b"], 10⟩
    (some [LVal.str "xy"])

/-- C4 counterexample: with a count bound of 128 (halved limit 64 under
Shrinking), a quicklist of one packed node holding exactly 64 elements is
demoted, although its count 64 is not below half of the bound — the
halved threshold is inclusive. -/
theorem quicklistDemotesAtExactHalf :
    listTypeTryConversionRaw (cfgCount 128)
        (.quicklist ⟨[⟨.packed, ⟨List.replicate 64 "x", 100⟩⟩]⟩) .shrinking none
      = .listpack ⟨List.replicate 64 "x", 100⟩
    ∧ ¬ ((64 : Nat) < 128 / 2) := by
  exact ⟨by decide, by decide⟩

/-- C4 (amended): with trigger Shrinking, a quicklist demotes to listpack
exactly when it consists of one packed node whose byte size and whose
total element count are within the halved applicable limits (inclusive
comparison against the integer-halved limit; the inapplicable limit
constrains nothing); in every other state the value is returned with the
encoding unchanged, and a demotion preserves the stored elements, so
shrinking one element at a time crosses over at one deterministic point. -/
theorem quicklistShrinkDemotionIff (cfg : ListConfig) (ql : Quicklist) :
    ((listTypeTryConversionRaw cfg (.quicklist ql) .shrinking none).enc = .listpack
      ↔ ∃ nd, ql.nodes = [nd] ∧ nd.container = .packed
          ∧ limGt nd.sz (halveIf true (quicklistNodeLimit cfg).1) = false
          ∧ limGt ql.count (halveIf true (quicklistNodeLimit cfg).2) = false)
    ∧ ((listTypeTryConversionRaw cfg (.quicklist ql) .shrinking none).enc
          = .quicklist →
        listTypeTryConversionRaw cfg (.quicklist ql) .shrinking none
          = .quicklist ql)
    ∧ (listTypeTryConversionRaw cfg (.quicklist ql) .shrinking none).elems
        = (ListStore.quicklist ql).elems := by
  have hraw : listTypeTryConversionRaw cfg (.quicklist ql) .shrinking none
      = listTypeTryConvertQuicklist cfg ql true := by
    simp [listTypeTryConversionRaw]
  rw [hraw]
  rcases ql with ⟨nodes⟩
  cases nodes with
  | nil =>
    simp [listTypeTryConvertQuicklist, ListStore.enc]
  | cons h t =>
    cases t with
    | nil =>
      by_cases hc : h.container = .packed
      · by_cases hlim : (limGt h.sz (halveIf true (quicklistNodeLimit cfg).1)
            || limGt (Quicklist.count ⟨[h]⟩)
                (halveIf true (quicklistNodeLimit cfg).2)) = true
        · simp only [listTypeTryConvertQuicklist]
          rw [if_pos hc, if_pos hlim]
          rcases Bool.or_eq_true_iff.1 hlim with hl | hl
          · simp [ListStore.enc, hl]
          · simp [ListStore.enc, hl]
        · simp only [listTypeTryConvertQuicklist]
          rw [if_pos hc, if_neg hlim]
          rw [Bool.not_eq_true] at hlim
          rcases Bool.or_eq_false_iff.1 hlim with ⟨hl1, hl2⟩
          simp [ListStore.enc, ListStore.elems, Quicklist.elems, hc, hl1, hl2]
      · simp only [listTypeTryConvertQuicklist]
        rw [if_neg hc]
        simp [ListStore.enc, hc]
    | cons h2 t2 =>
      simp [listTypeTryConvertQuicklist, ListStore.enc]

/-- Witness for C4 (amended) at a concrete small single-node quicklist
under a count bound of 128. -/
theorem quicklistShrinkDemotionIff_witness :
    ((listTypeTryConversionRaw (cfgCount 128)
          (.quicklist ⟨[⟨.packed, ⟨["x"], 5⟩⟩]⟩) .shrinking none).enc = .listpack
      ↔ ∃ nd, (Quicklist.mk [⟨.packed, ⟨["x"], 5⟩⟩]).nodes = [nd]
          ∧ nd.container = .packed
          ∧ limGt nd.sz (halveIf true (quicklistNodeLimit (cfgCount 128)).1)
              = false
          ∧ limGt (Quicklist.count ⟨[⟨.packed, ⟨["x"], 5⟩⟩]⟩)
              (halveIf true (quicklistNodeLimit (cfgCount 128)).2) = false)
    ∧ ((listTypeTryConversionRaw (cfgCount 128)
          (.quicklist ⟨[⟨.packed, ⟨["x"], 5⟩⟩]⟩) .shrinking none).enc
            = .quicklist →
        listTypeTryConversionRaw (cfgCount 128)
            (.quicklist ⟨[⟨.packed, ⟨["x"], 5⟩⟩]⟩) .shrinking none
          = .quicklist ⟨[⟨.packed, ⟨["x"], 5⟩⟩]⟩)
    ∧ (listTypeTryConversionRaw (cfgCount 128)
          (.quicklist ⟨[⟨.packed, ⟨["x"], 5⟩⟩]⟩) .shrinking none).elems
        = (ListStore.quicklist ⟨[⟨.packed, ⟨["x"], 5⟩⟩]⟩).elems :=
  quicklistShrinkDemotionIff (cfgCount 128) ⟨[⟨.packed, ⟨["x"], 5⟩⟩]⟩

theorem limGt_none (x : Nat) : limGt x none = false := rfl

theorem limGt_some (x a : Nat) : limGt x (some a) = decide (x > a) := rfl

theorem halveIf_true (l : Option Nat) : halveIf true l = l.map (· / 2) := rfl

theorem halveIf_false (l : Option Nat) : halveIf false l = l := rfl

theorem limGt_halve_true {x : Nat} {l : Option Nat} {sh : Bool}
    (h : limGt x l = true) : limGt x (halveIf sh l) = true := by
  cases l with
  | none => simp [limGt_none] at h
  | some a =>
    rw [limGt_some, decide_eq_true_eq] at h
    cases sh with
    | false =>
      rw [halveIf_false, limGt_some, decide_eq_true_eq]
      exact h
    | true =>
      rw [halveIf_true]
      show limGt x (some (a / 2)) = true
      rw [limGt_some, decide_eq_true_eq]
      omega

theorem limGt_halve_false {x : Nat} {l : Option Nat} {sh : Bool}
    (h : limGt x (halveIf sh l) = false) : limGt x l = false := by
  cases l with
  | none => exact limGt_none x
  | some a =>
    rw [limGt_some, decide_eq_false_iff_not]
    cases sh with
    | false =>
      rw [halveIf_false, limGt_some, decide_eq_false_iff_not] at h
      exact h
    | true =>
      rw [halveIf_true] at h
      have h2 : limGt x (some (a / 2)) = false := h
      rw [limGt_some, decide_eq_false_iff_not] at h2
      omega

/-- `listTypeTryConvertQuicklist` on an empty quicklist, unfolded. -/
theorem tryConvertQuicklist_nil (cfg : ListConfig) (sh : Bool) :
    listTypeTryConvertQuicklist cfg ⟨[]⟩ sh = .quicklist ⟨[]⟩ := rfl

/-- `listTypeTryConvertQuicklist` on a single node, unfolded. -/
theorem tryConvertQuicklist_single (cfg : ListConfig) (nd : QLNode) (sh : Bool) :
    listTypeTryConvertQuicklist cfg ⟨[nd]⟩ sh
      = if nd.container = .packed then
          if (limGt nd.sz (halveIf sh (quicklistNodeLimit cfg).1)
              || limGt nd.cnt (halveIf sh (quicklistNodeLimit cfg).2)) = true
          then .quicklist ⟨[nd]⟩
          else .listpack nd.entry
        else .quicklist ⟨[nd]⟩ := rfl

/-- `listTypeTryConvertQuicklist` on two or more nodes, unfolded. -/
theorem tryConvertQuicklist_multi (cfg : ListConfig) (nd nd2 : QLNode)
    (t : List QLNode) (sh : Bool) :
    listTypeTryConvertQuicklist cfg ⟨nd :: nd2 :: t⟩ sh
      = .quicklist ⟨nd :: nd2 :: t⟩ := rfl

/-- `listTypeTryConvertListpack` without about-to-add values, unfolded. -/
theorem tryConvertListpack_none_eq (cfg : ListConfig) (lp : LP) :
    listTypeTryConvertListpack cfg lp none
      = if quicklistNodeExceedsLimit cfg lp.bytes lp.entries.length = true then
          if lp.entries.length ≠ 0 then ListStore.quicklist ⟨[⟨.packed, lp⟩]⟩
          else .quicklist ⟨[]⟩
        else .listpack lp := rfl

/-- `listTypeTryConvertListpack` with about-to-add values, unfolded. -/
theorem tryConvertListpack_some_eq (cfg : ListConfig) (lp : LP) (vs : List LVal) :
    listTypeTryConvertListpack cfg lp (some vs)
      = if quicklistNodeExceedsLimit cfg (lp.bytes + addBytesOf vs)
            (lp.entries.length + vs.length) = true then
          if lp.entries.length ≠ 0 then ListStore.quicklist ⟨[⟨.packed, lp⟩]⟩
          else .quicklist ⟨[]⟩
        else .listpack lp := rfl

/-- Raw dispatch on a listpack store, unfolded. -/
theorem raw_listpack (cfg : ListConfig) (lp : LP) (t : ListConvType)
    (argv : Option (List LVal)) :
    listTypeTryConversionRaw cfg (.listpack lp) t argv
      = if t = .shrinking then .listpack lp
        else listTypeTryConvertListpack cfg lp argv := rfl

/-- Raw dispatch on a quicklist store, unfolded. -/
theorem raw_quicklist (cfg : ListConfig) (ql : Quicklist) (t : ListConvType)
    (argv : Option (List LVal)) :
    listTypeTryConversionRaw cfg (.quicklist ql) t argv
      = if t = .growing then .quicklist ql
        else listTypeTryConvertQuicklist cfg ql (t = .shrinking) := rfl

/-- A promotion's target quicklist is immediately stable: no demotion
check (halved or not) converts it back in the real listpack/quicklist
cycle only when the promotion was triggered by the current footprint. -/
theorem tryConvertListpack_then_stable (cfg : ListConfig) (lp : LP)
    (ql : Quicklist) (sh : Bool)
    (h : listTypeTryConvertListpack cfg lp none = .quicklist ql) :
    listTypeTryConvertQuicklist cfg ql sh = .quicklist ql := by
  rw [tryConvertListpack_none_eq] at h
  by_cases hex : quicklistNodeExceedsLimit cfg lp.bytes lp.entries.length = true
  · rw [if_pos hex] at h
    by_cases hz : lp.entries.length ≠ 0
    · rw [if_pos hz] at h
      have hql : ql = ⟨[⟨.packed, lp⟩]⟩ := by
        injection h with h2
        exact h2.symm
      subst hql
      rw [tryConvertQuicklist_single]
      have hcond : (limGt (QLNode.sz ⟨.packed, lp⟩)
            (halveIf sh (quicklistNodeLimit cfg).1)
          || limGt (QLNode.cnt ⟨.packed, lp⟩)
              (halveIf sh (quicklistNodeLimit cfg).2)) = true := by
        have hsz : QLNode.sz ⟨.packed, lp⟩ = lp.bytes := rfl
        have hcnt : QLNode.cnt ⟨.packed, lp⟩ = lp.entries.length := rfl
        simp only [quicklistNodeExceedsLimit, Bool.or_eq_true] at hex
        rcases hex with hl | hl
        · rw [hsz]
          simp [limGt_halve_true hl]
        · rw [hcnt]
          simp [limGt_halve_true hl]
      rw [if_pos rfl, if_pos hcond]
    · rw [if_neg hz] at h
      have hql : ql = ⟨[]⟩ := by
        injection h with h2
        exact h2.symm
      subst hql
      exact tryConvertQuicklist_nil cfg sh
  · rw [if_neg hex] at h
    simp at h

/-- A demotion's target listpack is immediately stable: its footprint was
within the (possibly halved) limits, so no growth check with no
about-to-add payloads promotes it back. -/
theorem tryConvertQuicklist_then_stable (cfg : ListConfig) (ql : Quicklist)
    (sh : Bool) (lp : LP)
    (h : listTypeTryConvertQuicklist cfg ql sh = .listpack lp) :
    listTypeTryConvertListpack cfg lp none = .listpack lp := by
  rcases ql with ⟨nodes⟩
  cases nodes with
  | nil =>
    rw [tryConvertQuicklist_nil] at h
    simp at h
  | cons nd t =>
    cases t with
    | nil =>
      rw [tryConvertQuicklist_single] at h
      by_cases hc : nd.container = .packed
      · rw [if_pos hc] at h
        by_cases hlim : (limGt nd.sz (halveIf sh (quicklistNodeLimit cfg).1)
            || limGt nd.cnt (halveIf sh (quicklistNodeLimit cfg).2)) = true
        · rw [if_pos hlim] at h
          simp at h
        · rw [if_neg hlim] at h
          have hlp : lp = nd.entry := by
            injection h with h2
            exact h2.symm
          rw [Bool.not_eq_true, Bool.or_eq_false_iff] at hlim
          rcases hlim with ⟨hl1, hl2⟩
          subst hlp
          have hsz : limGt nd.entry.bytes (quicklistNodeLimit cfg).1 = false :=
            limGt_halve_false hl1
          have hcnt : limGt nd.entry.entries.length (quicklistNodeLimit cfg).2
              = false := limGt_halve_false hl2
          rw [tryConvertListpack_none_eq,
            if_neg (by simp [quicklistNodeExceedsLimit, hsz, hcnt])]
      · rw [if_neg hc] at h
        simp at h
    | cons nd2 t2 =>
      rw [tryConvertQuicklist_multi] at h
      simp at h

/-- The only listpack a listpack-conversion check can return is the input
itself. -/
theorem tryConvertListpack_listpack_eq (cfg : ListConfig) (lp lp2 : LP)
    (argv : Option (List LVal))
    (h : listTypeTryConvertListpack cfg lp argv = .listpack lp2) : lp2 = lp := by
  cases argv with
  | none =>
    rw [tryConvertListpack_none_eq] at h
    by_cases hex : quicklistNodeExceedsLimit cfg lp.bytes lp.entries.length = true
    · rw [if_pos hex] at h
      by_cases hz : lp.entries.length ≠ 0
      · rw [if_pos hz] at h
        simp at h
      · rw [if_neg hz] at h
        simp at h
    · rw [if_neg hex] at h
      injection h with h2
      exact h2.symm
  | some vs =>
    rw [tryConvertListpack_some_eq] at h
    by_cases hex : quicklistNodeExceedsLimit cfg (lp.bytes + addBytesOf vs)
        (lp.entries.length + vs.length) = true
    · rw [if_pos hex] at h
      by_cases hz : lp.entries.length ≠ 0
      · rw [if_pos hz] at h
        simp at h
      · rw [if_neg hz] at h
        simp at h
    · rw [if_neg hex] at h
      injection h with h2
      exact h2.symm

/-- The only quicklist a quicklist-conversion check can return is the
input itself. -/
theorem tryConvertQuicklist_quicklist_eq (cfg : ListConfig)
    (ql ql2 : Quicklist) (sh : Bool)
    (h : listTypeTryConvertQuicklist cfg ql sh = .quicklist ql2) : ql2 = ql := by
  rcases ql with ⟨nodes⟩
  cases nodes with
  | nil =>
    rw [tryConvertQuicklist_nil] at h
    injection h with h2
    exact h2.symm
  | cons nd t =>
    cases t with
    | nil =>
      rw [tryConvertQuicklist_single] at h
      by_cases hc : nd.container = .packed
      · rw [if_pos hc] at h
        by_cases hlim : (limGt nd.sz (halveIf sh (quicklistNodeLimit cfg).1)
            || limGt nd.cnt (halveIf sh (quicklistNodeLimit cfg).2)) = true
        · rw [if_pos hlim] at h
          injection h with h2
          exact h2.symm
        · rw [if_neg hlim] at h
          simp at h
      · rw [if_neg hc] at h
        injection h with h2
        exact h2.symm
    | cons nd2 t2 =>
      rw [tryConvertQuicklist_multi] at h
      injection h with h2
      exact h2.symm

/-- C8 counterexample: with an element-count bound of 4 and a full
4-element listpack, a Growing TryConvert carrying one about-to-add payload
promotes to quicklist (projected count 5 exceeds 4), and an immediately
following Auto TryConvert — with no mutation in between — demotes
straight back: the second call changes the encoding and the pair performs
two conversions. -/
theorem tryConvertTwiceDoubleConversion :
    listTypeTryConversionRaw (cfgCount 4)
        (.listpack ⟨["a", "b", "c", "d"], 30⟩) .growing (some [LVal.str "e"])
      = .quicklist ⟨[⟨.packed, ⟨["a", "b", "c", "d"], 30⟩⟩]⟩
    ∧ listTypeTryConversionRaw (cfgCount 4)
        (.quicklist ⟨[⟨.packed, ⟨["a", "b", "c", "d"], 30⟩⟩]⟩) .auto none
      = .listpack ⟨["a", "b", "c", "d"], 30⟩ := by
  exact ⟨by decide, by decide⟩

/-- C8 (amended): with no about-to-add payloads, two consecutive
TryConvert calls with no mutation in between perform at most one encoding
conversion in total — if the first call converted, a second call with any
trigger returns the state unchanged — and a second call with the same
trigger as the first is always a no-op. -/
theorem tryConvertNoArgvStable (cfg : ListConfig) (o : ListStore)
    (t1 t2 : ListConvType) :
    ((listTypeTryConversionRaw cfg o t1 none).enc ≠ o.enc →
      listTypeTryConversionRaw cfg (listTypeTryConversionRaw cfg o t1 none) t2 none
        = listTypeTryConversionRaw cfg o t1 none)
    ∧ listTypeTryConversionRaw cfg (listTypeTryConversionRaw cfg o t1 none) t1 none
      = listTypeTryConversionRaw cfg o t1 none := by
  cases o with
  | listpack lp =>
    by_cases ht1 : t1 = .shrinking
    · subst ht1
      have hs : listTypeTryConversionRaw cfg (.listpack lp) .shrinking none
          = .listpack lp := by
        rw [raw_listpack, if_pos rfl]
      rw [hs]
      exact ⟨fun hc => absurd rfl hc, hs⟩
    · have hs : listTypeTryConversionRaw cfg (.listpack lp) t1 none
          = listTypeTryConvertListpack cfg lp none := by
        rw [raw_listpack, if_neg ht1]
      rw [hs]
      cases hres : listTypeTryConvertListpack cfg lp none with
      | listpack lp2 =>
        have hlp : lp2 = lp := tryConvertListpack_listpack_eq cfg lp lp2 none hres
        subst hlp
        refine ⟨fun hc => absurd rfl hc, ?_⟩
        rw [raw_listpack, if_neg ht1, hres]
      | quicklist ql =>
        have hstab : ∀ sh : Bool,
            listTypeTryConvertQuicklist cfg ql sh = .quicklist ql :=
          fun sh => tryConvertListpack_then_stable cfg lp ql sh hres
        constructor
        · intro _
          by_cases ht2 : t2 = .growing
          · subst ht2
            rw [raw_quicklist, if_pos rfl]
          · rw [raw_quicklist, if_neg ht2, hstab]
        · rw [raw_quicklist]
          by_cases hg : t1 = .growing
          · rw [if_pos hg]
          · rw [if_neg hg, hstab]
  | quicklist ql =>
    by_cases ht1 : t1 = .growing
    · subst ht1
      have hs : listTypeTryConversionRaw cfg (.quicklist ql) .growing none
          = .quicklist ql := by
        rw [raw_quicklist, if_pos rfl]
      rw [hs]
      exact ⟨fun hc => absurd rfl hc, hs⟩
    · have hs : listTypeTryConversionRaw cfg (.quicklist ql) t1 none
          = listTypeTryConvertQuicklist cfg ql (t1 = .shrinking) := by
        rw [raw_quicklist, if_neg ht1]
      rw [hs]
      cases hres : listTypeTryConvertQuicklist cfg ql (t1 = .shrinking) with
      | quicklist ql2 =>
        have hql : ql2 = ql := tryConvertQuicklist_quicklist_eq cfg ql ql2 _ hres
        subst hql
        refine ⟨fun hc => absurd rfl hc, ?_⟩
        rw [raw_quicklist, if_neg ht1, hres]
      | listpack lp =>
        have hstab : listTypeTryConvertListpack cfg lp none = .listpack lp :=
          tryConvertQuicklist_then_stable cfg ql _ lp hres
        constructor
        · intro _
          by_cases ht2 : t2 = .shrinking
          · subst ht2
            rw [raw_listpack, if_pos rfl]
          · rw [raw_listpack, if_neg ht2, hstab]
        · by_cases hsh : t1 = .shrinking
          · subst hsh
            rw [raw_listpack, if_pos rfl]
          · rw [raw_listpack, if_neg hsh, hstab]

/-- Witness for C8 (amended) at a concrete single-node quicklist: the
first Auto call may demote, the second Shrinking call returns that result
unchanged, and repeating the Auto call is a no-op. -/
theorem tryConvertNoArgvStable_witness :
    ((listTypeTryConversionRaw (cfgCount 4)
          (.quicklist ⟨[⟨.packed, ⟨["a", "b"], 10⟩⟩]⟩) .auto none).enc
        ≠ (ListStore.quicklist ⟨[⟨.packed, ⟨["a", "b"], 10⟩⟩]⟩).enc →
      listTypeTryConversionRaw (cfgCount 4)
          (listTypeTryConversionRaw (cfgCount 4)
            (.quicklist ⟨[⟨.packed, ⟨["a", "b"], 10⟩⟩]⟩) .auto none) .shrinking none
        = listTypeTryConversionRaw (cfgCount 4)
            (.quicklist ⟨[⟨.packed, ⟨["a", "b"], 10⟩⟩]⟩) .auto none)
    ∧ listTypeTryConversionRaw (cfgCount 4)
        (listTypeTryConversionRaw (cfgCount 4)
          (.quicklist ⟨[⟨.packed, ⟨["a", "b"], 10⟩⟩]⟩) .auto none) .auto none
      = listTypeTryConversionRaw (cfgCount 4)
          (.quicklist ⟨[⟨.packed, ⟨["a", "b"], 10⟩⟩]⟩) .auto none :=
  tryConvertNoArgvStable (cfgCount 4)
    (.quicklist ⟨[⟨.packed, ⟨["a", "b"], 10⟩⟩]⟩) .auto .shrinking

/-- C9 counterexample: a tail-direction iterator deleting the tail
boundary element of ["a", "b"] ends with a NULL cursor and the next
advance yields nothing — the cursor is not repositioned to the new
boundary element, so iteration terminates instead of resuming there. -/
theorem deleteTailBoundaryEndsIteration :
    listTypeDeleteLp ["a", "b"] 1 .tail = (["a"], none)
    ∧ listTypeNextLp ["a"] none .tail = none := ⟨rfl, rfl⟩

/-- C9 (amended): deleting the iterator-provided entry of a
listpack-encoded list removes exactly that element, and the cursor then
rests on the next element in the iterator's direction — toward the tail,
the element that followed the deleted one; toward the head, the element
that preceded it — while, when the deleted element was the boundary
element in that direction, the cursor becomes NULL and the iteration
terminates (it is not repositioned to the new boundary). -/
theorem lpDeleteCursorSpec (l : List String) (i : Nat) (dir : Where)
    (h : i < l.length) :
    listTypeDeleteLp l i dir
      = (l.eraseIdx i,
         match dir with
         | .tail => if i + 1 < l.length then some i else none
         | .head => if i = 0 then none else some (i - 1)) := by
  cases dir with
  | tail => rfl
  | head =>
    simp only [listTypeDeleteLp, lpDeleteIdx]
    by_cases h2 : i + 1 < l.length
    · rw [if_pos h2]
      simp [lpPrevIdx]
    · rw [if_neg h2]
      have hi : i = l.length - 1 := by omega
      have hlen : (l.eraseIdx i).length = l.length - 1 := by
        rw [List.length_eraseIdx]
        simp [h]
      simp only [lpLastIdx, hlen]
      congr 1
      rw [hi]

/-- Witness for C9 (amended): deleting the middle element of a
three-element list under a head-direction iterator leaves the cursor on
the preceding element. -/
theorem lpDeleteCursorSpec_witness :
    1 < (["a", "b", "c"] : List String).length
    ∧ listTypeDeleteLp ["a", "b", "c"] 1 .head
      = ((["a", "b", "c"] : List String).eraseIdx 1,
         match Where.head with
         | .tail => if 1 + 1 < (["a", "b", "c"] : List String).length
                    then some 1 else none
         | .head => if 1 = 0 then none else some (1 - 1)) :=
  ⟨by decide, lpDeleteCursorSpec ["a", "b", "c"] 1 .head (by decide)⟩

end RedQueue
